import Mathlib

/-!
# Ledger object keys and the datastore interface

A shallow embedding of `support/datastore/datastore.go`:

* `GetObjectKeyFromSequenceNumber`, the derivation of an object key from a
  ledger sequence number, over `uint32` arithmetic (naturals reduced modulo
  `2 ^ 32`, division by zero being a run-time panic);
* the prefix computation of `NewDataStore`;
* the `DataStore` interface, whose only implementation lives outside this
  file's source and is modelled from the specification.
-/

namespace Datastore

/-! ## `uint32` arithmetic -/

/-- Number of values of a Go `uint32`. -/
def uint32Size : Nat := 2 ^ 32

/-- Go `a * b` on `uint32`: the product wraps modulo `2 ^ 32`. -/
def mul32 (a b : Nat) : Nat := (a * b) % uint32Size

/-- Go `a + b` on `uint32`: the sum wraps modulo `2 ^ 32`. -/
def add32 (a b : Nat) : Nat := (a + b) % uint32Size

/-- Go `a - b` on `uint32`: the difference wraps modulo `2 ^ 32`. -/
def sub32 (a b : Nat) : Nat := (a + uint32Size - b % uint32Size) % uint32Size

/-- Go `a / b` on `uint32`: `none` stands for the run-time panic
"integer divide by zero". -/
def div32 (a b : Nat) : Option Nat := if b = 0 then none else some (a / b)

/-! ## Formatting -/

/-- The verb `%d` of `fmt.Sprintf` applied to a `uint32`: base 10, no sign,
no leading zeros. -/
def fmtD (n : Nat) : String := Nat.repr n

/-! ## `GetObjectKeyFromSequenceNumber` -/

/-- What a call of a Go function of result type `(string, error)` does:
it returns a string and an error (`none` is `nil`), or it panics. -/
inductive KeyResult where
  | ret (key : String) (err : Option String)
  | panicDivideByZero
  deriving DecidableEq, Repr

/-- Line 74: `partitionSize := ledgersPerFile * filesPerPartition`. -/
def partitionSize (ledgersPerFile filesPerPartition : Nat) : Nat :=
  mul32 ledgersPerFile filesPerPartition

/-- Line 75: `partitionStart := (ledgerSeq / partitionSize) * partitionSize`;
`none` when the division panics. -/
def partitionStart (ledgerSeq ledgersPerFile filesPerPartition : Nat) : Option Nat :=
  (div32 ledgerSeq (partitionSize ledgersPerFile filesPerPartition)).map
    fun q => mul32 q (partitionSize ledgersPerFile filesPerPartition)

/-- Line 76: `partitionEnd := partitionStart + partitionSize - 1`. -/
def partitionEnd (ledgerSeq ledgersPerFile filesPerPartition : Nat) : Option Nat :=
  (partitionStart ledgerSeq ledgersPerFile filesPerPartition).map
    fun s => sub32 (add32 s (partitionSize ledgersPerFile filesPerPartition)) 1

/-- Lines 73-78: the value of `objectKey` after the partition block; `none`
when the block panics. -/
def partitionDir (ledgerSeq ledgersPerFile filesPerPartition : Nat) : Option String :=
  if filesPerPartition > 1 then
    match partitionStart ledgerSeq ledgersPerFile filesPerPartition,
        partitionEnd ledgerSeq ledgersPerFile filesPerPartition with
    | some s, some e => some (fmtD s ++ "-" ++ fmtD e ++ "/")
    | _, _ => none
  else
    some ""

/-- Line 80: `fileStart := (ledgerSeq / ledgersPerFile) * ledgersPerFile`.
The line is reached only with `ledgersPerFile ≥ 1` (guard of line 69), so
this division cannot panic. -/
def fileStart (ledgerSeq ledgersPerFile : Nat) : Nat :=
  mul32 (ledgerSeq / ledgersPerFile) ledgersPerFile

/-- Line 81: `fileEnd := fileStart + ledgersPerFile - 1`. -/
def fileEnd (ledgerSeq ledgersPerFile : Nat) : Nat :=
  sub32 (add32 (fileStart ledgerSeq ledgersPerFile) ledgersPerFile) 1

/-- The function `GetObjectKeyFromSequenceNumber` (lines 66-91). The three
numeric arguments are `uint32` values, that is naturals below `2 ^ 32`. -/
def GetObjectKeyFromSequenceNumber (ledgerSeq ledgersPerFile filesPerPartition : Nat)
    (fileSuffix : String) : KeyResult :=
  if ledgersPerFile < 1 then
    .ret "" (some ("Invalid ledgers per file (" ++ fmtD ledgersPerFile ++ "): must be at least 1"))
  else
    match partitionDir ledgerSeq ledgersPerFile filesPerPartition with
    | none => .panicDivideByZero
    | some objectKey =>
      let objectKey := objectKey ++ fmtD (fileStart ledgerSeq ledgersPerFile)
      let objectKey :=
        if fileStart ledgerSeq ledgersPerFile ≠ fileEnd ledgerSeq ledgersPerFile then
          objectKey ++ ("-" ++ fmtD (fileEnd ledgerSeq ledgersPerFile))
        else objectKey
      .ret (objectKey ++ fileSuffix) none

/-! ## `NewDataStore` (lines 32-63) -/

/-- The fields of a parsed URL that `NewDataStore` reads. -/
structure URL where
  Scheme : String
  Host : String
  Path : String
  deriving DecidableEq, Repr

/-- Go `strings.TrimPrefix`: `s` without the leading `pfx` when `s` starts with
`pfx`, and `s` unchanged otherwise. One occurrence is removed, not every one. -/
def TrimPrefix (s pfx : String) : String :=
  if pfx.data.isPrefixOf s.data then ⟨s.data.drop pfx.data.length⟩ else s

/-- The value built by line 62. The client and the bucket handle are external
values, the bucket is kept by its name; the field `pfx` is the field `prefix`
of the source. -/
structure GCSDataStore where
  bucket : String
  pfx : String
  deriving DecidableEq, Repr

/-- The function `NewDataStore` (lines 32-63). The outcomes of the three external
calls are arguments: `parse` for `url.Parse` (line 33), `newClient` for
`storage.NewClient` (line 51) and `bucketAttrs` for `bucket.Attrs` (line 58),
each a success or an error message. -/
def NewDataStore (parse : String → Except String URL) (newClient : Except String Unit)
    (bucketAttrs : String → Except String Unit) (destinationURL : String) :
    Except String GCSDataStore :=
  match parse destinationURL with
  | .error err => .error err
  | .ok parsed =>
    let pth := parsed.Path
    if parsed.Scheme ≠ "gcs" then
      .error ("Invalid destination URL " ++ destinationURL ++ ". Expected GCS URL ")
    else
      let pth := TrimPrefix pth "/"
      let bucketName := parsed.Host
      let pfx := pth
      match newClient with
      | .error err => .error err
      | .ok _ =>
        match bucketAttrs bucketName with
        | .error err => .error ("failed to retrieve bucket attributes: " ++ err)
        | .ok _ => .ok { bucket := bucketName, pfx := pfx }

/-! ## The `DataStore` interface (lines 17-28)

The source declares the interface only; the behaviour of its operations is
taken from the specification. -/

/-- Modelled from the spec: the state of a store behind the `DataStore`
interface, the content stored at each key (the first pair of a key counts) and
whether `Close` was called. -/
structure DataStore where
  objects : List (String × List Nat)
  closed : Bool
  deriving DecidableEq, Repr

/-- Modelled from the spec: the content stored at `path`, if any. -/
def DataStore.content (s : DataStore) (path : String) : Option (List Nat) :=
  s.objects.lookup path

/-- Modelled from the spec: `exists(key)` tells whether an object is stored at
the key; an operation on a closed store fails with an error. -/
def DataStore.Exists (s : DataStore) (path : String) : Bool × Option String :=
  if s.closed then (false, some "store is closed")
  else ((s.content path).isSome, none)

/-- Modelled from the spec: `put(key, content)` writes or overwrites the object
at the key. -/
def DataStore.PutFile (s : DataStore) (path : String) (content : List Nat) :
    DataStore × Option String :=
  if s.closed then (s, some "store is closed")
  else ({ s with objects := (path, content) :: s.objects }, none)

/-- Modelled from the spec: `putIfNotExists(key, content)`: if an object already
exists at the key, no write occurs and the result is `(false, nil)`; otherwise
the write is performed and the result is `(true, nil)`. -/
def DataStore.PutFileIfNotExists (s : DataStore) (path : String) (content : List Nat) :
    DataStore × Bool × Option String :=
  if s.closed then (s, false, some "store is closed")
  else if (s.content path).isSome then (s, false, none)
  else ((s.PutFile path content).1, true, none)

/-- Modelled from the spec: `close()` releases the store; later operations fail
with an error. -/
def DataStore.Close (s : DataStore) : DataStore × Option String :=
  ({ s with closed := true }, none)

/-! ## Decimal rendering: what the proofs need to know about `%d` -/

/-- Reading a list of decimal digit characters back as a number, most
significant digit first. -/
def readDigits (acc : Nat) (cs : List Char) : Nat :=
  cs.foldl (fun a c => a * 10 + (c.toNat - 48)) acc

/-- The characters of lines 82-87: the file start and, when the test of line 85
succeeds, a dash and the file end. -/
def fileBaseChars (ledgerSeq ledgersPerFile : Nat) : List Char :=
  (fmtD (fileStart ledgerSeq ledgersPerFile)).data ++
    if fileStart ledgerSeq ledgersPerFile ≠ fileEnd ledgerSeq ledgersPerFile then
      '-' :: (fmtD (fileEnd ledgerSeq ledgersPerFile)).data
    else []

theorem digitChar_toNat (d : Nat) (h : d < 10) : (Nat.digitChar d).toNat - 48 = d := by
  interval_cases d <;> rfl

theorem digitChar_isDigit (d : Nat) (h : d < 10) : (Nat.digitChar d).isDigit = true := by
  interval_cases d <;> rfl

theorem readDigits_toDigitsCore (fuel : Nat) :
    ∀ (n : Nat) (ds : List Char), n < fuel →
      readDigits 0 (Nat.toDigitsCore 10 fuel n ds) = readDigits n ds := by
  induction fuel with
  | zero => intro n ds h; omega
  | succ fuel ih =>
    intro n ds h
    have hd : (Nat.digitChar (n % 10)).toNat - 48 = n % 10 :=
      digitChar_toNat _ (Nat.mod_lt _ (by decide))
    simp only [Nat.toDigitsCore]
    split
    · next h0 =>
      have hn : n % 10 = n := by omega
      simp only [readDigits, List.foldl_cons, hd, Nat.zero_mul, Nat.zero_add]
      rw [hn]
    · next h0 =>
      rw [ih (n / 10) _ (by omega)]
      have hn : n / 10 * 10 + n % 10 = n := by omega
      simp only [readDigits, List.foldl_cons, hd]
      rw [hn]

theorem toDigitsCore_isDigit (fuel : Nat) :
    ∀ (n : Nat) (ds : List Char), (∀ c ∈ ds, c.isDigit = true) →
      ∀ c ∈ Nat.toDigitsCore 10 fuel n ds, c.isDigit = true := by
  induction fuel with
  | zero => intro n ds h; simpa [Nat.toDigitsCore] using h
  | succ fuel ih =>
    intro n ds h
    have hd : (Nat.digitChar (n % 10)).isDigit = true :=
      digitChar_isDigit _ (Nat.mod_lt _ (by decide))
    have hds : ∀ c ∈ Nat.digitChar (n % 10) :: ds, c.isDigit = true := by
      intro c hc
      rcases List.mem_cons.1 hc with rfl | hc
      · exact hd
      · exact h c hc
    simp only [Nat.toDigitsCore]
    split
    · exact hds
    · exact ih _ _ hds

theorem readDigits_fmtD (n : Nat) : readDigits 0 (fmtD n).data = n := by
  simpa [fmtD, Nat.repr, Nat.toDigits, List.asString, readDigits] using
    readDigits_toDigitsCore (n + 1) n [] (Nat.lt_succ_self n)

/-- The rendering `%d` is injective. -/
theorem fmtD_injective {a b : Nat} (h : fmtD a = fmtD b) : a = b := by
  have := congrArg (fun s => readDigits 0 s.data) h
  simpa [readDigits_fmtD] using this

/-- The rendering `%d` consists of decimal digits only. -/
theorem fmtD_isDigit (n : Nat) : ∀ c ∈ (fmtD n).data, c.isDigit = true := by
  have := toDigitsCore_isDigit (n + 1) n [] (by simp)
  simpa [fmtD, Nat.repr, Nat.toDigits, List.asString] using this

theorem fmtD_data_injective {a b : Nat} (h : (fmtD a).data = (fmtD b).data) : a = b := by
  have := congrArg (readDigits 0) h
  simpa [readDigits_fmtD] using this

theorem dash_not_mem_fmtD (n : Nat) : '-' ∉ (fmtD n).data :=
  fun h => absurd (fmtD_isDigit n _ h) (by decide)

theorem slash_not_mem_fmtD (n : Nat) : '/' ∉ (fmtD n).data :=
  fun h => absurd (fmtD_isDigit n _ h) (by decide)

/-- Two lists that agree, each cut at the first occurrence of a separator,
agree on both sides of the cut. -/
theorem eq_of_append_sep (c : Char) :
    ∀ (l₁ l₂ r₁ r₂ : List Char), c ∉ l₁ → c ∉ l₂ →
      l₁ ++ c :: r₁ = l₂ ++ c :: r₂ → l₁ = l₂ ∧ r₁ = r₂ := by
  intro l₁
  induction l₁ with
  | nil =>
    intro l₂ r₁ r₂ _ h₂ h
    cases l₂ with
    | nil => exact ⟨rfl, by simpa using h⟩
    | cons b l₂ =>
      simp only [List.nil_append, List.cons_append, List.cons.injEq] at h
      exact absurd (by rw [h.1]; exact List.mem_cons_self _ _) h₂
  | cons a l₁ ih =>
    intro l₂ r₁ r₂ h₁ h₂ h
    cases l₂ with
    | nil =>
      simp only [List.nil_append, List.cons_append, List.cons.injEq] at h
      exact absurd (by rw [← h.1]; exact List.mem_cons_self _ _) h₁
    | cons b l₂ =>
      simp only [List.cons_append, List.cons.injEq] at h
      have := ih l₂ r₁ r₂ (fun hc => h₁ (List.mem_cons_of_mem _ hc))
        (fun hc => h₂ (List.mem_cons_of_mem _ hc)) h.2
      exact ⟨by rw [h.1, this.1], this.2⟩

/-! ## Facts of `uint32` arithmetic used below -/

theorem fileStart_eq (ledgerSeq ledgersPerFile : Nat) (hs : ledgerSeq < 2 ^ 32) :
    fileStart ledgerSeq ledgersPerFile = ledgerSeq / ledgersPerFile * ledgersPerFile := by
  have hle : ledgerSeq / ledgersPerFile * ledgersPerFile ≤ ledgerSeq :=
    Nat.div_mul_le_self _ _
  simp only [fileStart, mul32, uint32Size]
  exact Nat.mod_eq_of_lt (by omega)

theorem fileEnd_eq (ledgerSeq ledgersPerFile : Nat) (hs : ledgerSeq < 2 ^ 32)
    (h1 : 1 ≤ ledgersPerFile)
    (hfit : ledgerSeq / ledgersPerFile * ledgersPerFile + ledgersPerFile - 1 < 2 ^ 32) :
    fileEnd ledgerSeq ledgersPerFile
      = ledgerSeq / ledgersPerFile * ledgersPerFile + ledgersPerFile - 1 := by
  rw [fileEnd, fileStart_eq _ _ hs]
  generalize ledgerSeq / ledgersPerFile * ledgersPerFile = fs at hfit ⊢
  simp only [sub32, add32, uint32Size]
  norm_num at hfit ⊢
  omega

/-- With `1 ≤ ledgersPerFile < 2 ^ 32` the test of line 85 succeeds exactly
when `ledgersPerFile` is not 1, whatever wraps. -/
theorem fileStart_ne_fileEnd_iff (ledgerSeq ledgersPerFile : Nat)
    (h1 : 1 ≤ ledgersPerFile) (hl : ledgersPerFile < 2 ^ 32) :
    fileStart ledgerSeq ledgersPerFile ≠ fileEnd ledgerSeq ledgersPerFile
      ↔ ledgersPerFile ≠ 1 := by
  have hlt : fileStart ledgerSeq ledgersPerFile < 4294967296 := by
    simp only [fileStart, mul32, uint32Size]
    exact Nat.mod_lt _ (by norm_num)
  rw [fileEnd]
  generalize fileStart ledgerSeq ledgersPerFile = fs at hlt ⊢
  simp only [sub32, add32, uint32Size]
  norm_num at hl ⊢
  omega

theorem partitionSize_eq (ledgersPerFile filesPerPartition : Nat)
    (h : ledgersPerFile * filesPerPartition < 2 ^ 32) :
    partitionSize ledgersPerFile filesPerPartition = ledgersPerFile * filesPerPartition := by
  simp only [partitionSize, mul32, uint32Size]
  exact Nat.mod_eq_of_lt h

theorem partitionStart_eq (ledgerSeq ledgersPerFile filesPerPartition : Nat)
    (hs : ledgerSeq < 2 ^ 32) (h0 : 0 < ledgersPerFile * filesPerPartition)
    (h : ledgersPerFile * filesPerPartition < 2 ^ 32) :
    partitionStart ledgerSeq ledgersPerFile filesPerPartition
      = some (ledgerSeq / (ledgersPerFile * filesPerPartition)
          * (ledgersPerFile * filesPerPartition)) := by
  have hle : ledgerSeq / (ledgersPerFile * filesPerPartition)
      * (ledgersPerFile * filesPerPartition) ≤ ledgerSeq := Nat.div_mul_le_self _ _
  have hlt : ledgerSeq / (ledgersPerFile * filesPerPartition)
      * (ledgersPerFile * filesPerPartition) < 2 ^ 32 := by omega
  simp only [partitionStart, partitionSize_eq _ _ h, div32, mul32, uint32Size,
    if_neg (Nat.pos_iff_ne_zero.1 h0), Option.map_some', Nat.mod_eq_of_lt hlt]

theorem partitionEnd_eq (ledgerSeq ledgersPerFile filesPerPartition : Nat)
    (hs : ledgerSeq < 2 ^ 32) (h0 : 0 < ledgersPerFile * filesPerPartition)
    (h : ledgersPerFile * filesPerPartition < 2 ^ 32)
    (hfit : ledgerSeq / (ledgersPerFile * filesPerPartition)
        * (ledgersPerFile * filesPerPartition)
        + ledgersPerFile * filesPerPartition - 1 < 2 ^ 32) :
    partitionEnd ledgerSeq ledgersPerFile filesPerPartition
      = some (ledgerSeq / (ledgersPerFile * filesPerPartition)
          * (ledgersPerFile * filesPerPartition)
          + ledgersPerFile * filesPerPartition - 1) := by
  rw [partitionEnd, partitionStart_eq _ _ _ hs h0 h, partitionSize_eq _ _ h]
  generalize ledgerSeq / (ledgersPerFile * filesPerPartition)
    * (ledgersPerFile * filesPerPartition) = ps at hfit ⊢
  generalize ledgersPerFile * filesPerPartition = P at h0 h hfit ⊢
  simp only [Option.map_some', sub32, add32, uint32Size]
  norm_num at h hfit ⊢
  omega

/-- The call returns a key and a nil error as soon as the guard of line 69
passes and the divisor of line 75, when that line runs, is not zero. -/
theorem returns_of_partitionSize_ne_zero (ledgerSeq ledgersPerFile filesPerPartition : Nat)
    (fileSuffix : String) (h1 : 1 ≤ ledgersPerFile)
    (h : filesPerPartition ≤ 1 ∨ partitionSize ledgersPerFile filesPerPartition ≠ 0) :
    ∃ key, GetObjectKeyFromSequenceNumber ledgerSeq ledgersPerFile filesPerPartition fileSuffix
      = .ret key none := by
  have hg : ¬ ledgersPerFile < 1 := by omega
  by_cases hf : filesPerPartition > 1
  · have hp : partitionSize ledgersPerFile filesPerPartition ≠ 0 := by
      rcases h with h | h
      · omega
      · exact h
    simp only [GetObjectKeyFromSequenceNumber, if_neg hg, partitionDir, if_pos hf,
      partitionEnd, partitionStart, div32, if_neg hp, Option.map_some']
    exact ⟨_, rfl⟩
  · simp only [GetObjectKeyFromSequenceNumber, if_neg hg, partitionDir, if_neg hf]
    exact ⟨_, rfl⟩

/-- The call panics exactly in the remaining case: the guard of line 69
passes, line 75 runs and its divisor is zero. -/
theorem panics_of_partitionSize_eq_zero (ledgerSeq ledgersPerFile filesPerPartition : Nat)
    (fileSuffix : String) (h1 : 1 ≤ ledgersPerFile) (hf : filesPerPartition > 1)
    (h : partitionSize ledgersPerFile filesPerPartition = 0) :
    GetObjectKeyFromSequenceNumber ledgerSeq ledgersPerFile filesPerPartition fileSuffix
      = .panicDivideByZero := by
  have hg : ¬ ledgersPerFile < 1 := by omega
  simp only [GetObjectKeyFromSequenceNumber, if_neg hg, partitionDir, if_pos hf,
    partitionEnd, partitionStart, div32, h, if_true, Option.map_none']

/-! ## The claims about `GetObjectKeyFromSequenceNumber` -/

/-- C1. With `ledgersPerFile = 0` the call returns the empty key together with
an error, whatever the sequence number, `filesPerPartition` (values above 1
included) and the suffix: the guard of line 69 runs before any division. -/
theorem zero_ledgersPerFile_is_error (ledgerSeq filesPerPartition : Nat) (fileSuffix : String) :
    GetObjectKeyFromSequenceNumber ledgerSeq 0 filesPerPartition fileSuffix
      = .ret "" (some "Invalid ledgers per file (0): must be at least 1") := by
  simp only [GetObjectKeyFromSequenceNumber]
  rfl

/-- C2 as stated fails: with `ledgersPerFile = 3` and
`filesPerPartition = 1431655766` the product wraps to `partitionSize = 2`, and
the sequence numbers 0 and 2, both in the file range 0-2, get keys in different
partition directories. -/
theorem sameRange_differentKey_when_wrapping :
    1 ≤ 3 ∧ 3 < 2 ^ 32 ∧ 1431655766 < 2 ^ 32 ∧ 0 < 2 ^ 32 ∧ 2 < 2 ^ 32 ∧ 0 / 3 = 2 / 3 ∧
    GetObjectKeyFromSequenceNumber 0 3 1431655766 ".xdr.gz" = .ret "0-1/0-2.xdr.gz" none ∧
    GetObjectKeyFromSequenceNumber 2 3 1431655766 ".xdr.gz" = .ret "2-3/0-2.xdr.gz" none ∧
    GetObjectKeyFromSequenceNumber 0 3 1431655766 ".xdr.gz"
      ≠ GetObjectKeyFromSequenceNumber 2 3 1431655766 ".xdr.gz" := by
  decide

/-- C2, amended. When no partition directory is emitted (`filesPerPartition ≤ 1`)
or the product `ledgersPerFile * filesPerPartition` fits in 32 bits, two
sequence numbers of the same file range get the identical key, partition
directory included, and the call returns it with a nil error. -/
theorem sameRange_sameKey (ledgerSeq1 ledgerSeq2 ledgersPerFile filesPerPartition : Nat)
    (fileSuffix : String) (h1 : 1 ≤ ledgersPerFile)
    (hfit : filesPerPartition ≤ 1 ∨ ledgersPerFile * filesPerPartition < 2 ^ 32)
    (h : ledgerSeq1 / ledgersPerFile = ledgerSeq2 / ledgersPerFile) :
    ∃ key,
      GetObjectKeyFromSequenceNumber ledgerSeq1 ledgersPerFile filesPerPartition fileSuffix
        = .ret key none ∧
      GetObjectKeyFromSequenceNumber ledgerSeq2 ledgersPerFile filesPerPartition fileSuffix
        = .ret key none := by
  have hfs : fileStart ledgerSeq1 ledgersPerFile = fileStart ledgerSeq2 ledgersPerFile := by
    simp only [fileStart, h]
  have hfe : fileEnd ledgerSeq1 ledgersPerFile = fileEnd ledgerSeq2 ledgersPerFile := by
    simp only [fileEnd, hfs]
  have hdir : partitionDir ledgerSeq1 ledgersPerFile filesPerPartition
      = partitionDir ledgerSeq2 ledgersPerFile filesPerPartition := by
    by_cases hf : filesPerPartition > 1
    · have hlt : ledgersPerFile * filesPerPartition < 2 ^ 32 := by
        rcases hfit with hfit | hfit
        · omega
        · exact hfit
      have hq : ledgerSeq1 / (ledgersPerFile * filesPerPartition)
          = ledgerSeq2 / (ledgersPerFile * filesPerPartition) := by
        rw [← Nat.div_div_eq_div_mul, ← Nat.div_div_eq_div_mul, h]
      have hps : partitionStart ledgerSeq1 ledgersPerFile filesPerPartition
          = partitionStart ledgerSeq2 ledgersPerFile filesPerPartition := by
        simp only [partitionStart, partitionSize_eq _ _ hlt, div32, hq]
      simp only [partitionDir, partitionEnd, hps]
    · simp only [partitionDir, if_neg hf]
  have hsize : filesPerPartition ≤ 1 ∨ partitionSize ledgersPerFile filesPerPartition ≠ 0 := by
    rcases hfit with hfit | hfit
    · exact Or.inl hfit
    · by_cases hf : filesPerPartition ≤ 1
      · exact Or.inl hf
      · refine Or.inr ?_
        rw [partitionSize_eq _ _ hfit]
        exact Nat.mul_ne_zero (by omega) (by omega)
  obtain ⟨key, hkey⟩ := returns_of_partitionSize_ne_zero ledgerSeq2 ledgersPerFile
    filesPerPartition fileSuffix h1 hsize
  refine ⟨key, ?_, hkey⟩
  rw [← hkey]
  simp only [GetObjectKeyFromSequenceNumber, hdir, hfs, hfe]

theorem sameRange_sameKey_witness :
    1 ≤ 64 ∧ ((10 : Nat) ≤ 1 ∨ 64 * 10 < 2 ^ 32) ∧ 192 / 64 = 255 / 64 ∧
    ∃ key,
      GetObjectKeyFromSequenceNumber 192 64 10 ".xdr.gz" = .ret key none ∧
      GetObjectKeyFromSequenceNumber 255 64 10 ".xdr.gz" = .ret key none :=
  ⟨by decide, by decide, by decide,
    sameRange_sameKey 192 255 64 10 ".xdr.gz" (by decide) (by decide) (by decide)⟩

/-! ### The shape of a returned key -/

theorem key_data (ledgerSeq ledgersPerFile filesPerPartition : Nat) (fileSuffix key : String)
    (h1 : 1 ≤ ledgersPerFile)
    (h : GetObjectKeyFromSequenceNumber ledgerSeq ledgersPerFile filesPerPartition fileSuffix
      = .ret key none) :
    ∃ dir, partitionDir ledgerSeq ledgersPerFile filesPerPartition = some dir ∧
      key.data = dir.data ++ (fileBaseChars ledgerSeq ledgersPerFile ++ fileSuffix.data) := by
  have hg : ¬ ledgersPerFile < 1 := by omega
  simp only [GetObjectKeyFromSequenceNumber, if_neg hg] at h
  cases hd : partitionDir ledgerSeq ledgersPerFile filesPerPartition with
  | none =>
    rw [hd] at h
    exact KeyResult.noConfusion h
  | some dir =>
    refine ⟨dir, rfl, ?_⟩
    rw [hd] at h
    have hkey := (KeyResult.ret.inj h).1
    have hdash : ("-" : String).data = ['-'] := rfl
    rw [← hkey, fileBaseChars]
    by_cases hne : fileStart ledgerSeq ledgersPerFile ≠ fileEnd ledgerSeq ledgersPerFile
    · simp only [if_pos hne, String.data_append, hdash, List.append_assoc,
        List.singleton_append]
    · simp only [if_neg hne, String.data_append, List.append_assoc, List.append_nil]

theorem partitionDir_data (ledgerSeq ledgersPerFile filesPerPartition : Nat) (dir : String)
    (h : partitionDir ledgerSeq ledgersPerFile filesPerPartition = some dir) :
    (filesPerPartition ≤ 1 ∧ dir.data = []) ∨
    (filesPerPartition > 1 ∧ ∃ s e,
      partitionStart ledgerSeq ledgersPerFile filesPerPartition = some s ∧
      partitionEnd ledgerSeq ledgersPerFile filesPerPartition = some e ∧
      dir.data = (fmtD s).data ++ '-' :: ((fmtD e).data ++ ['/'])) := by
  by_cases hf : filesPerPartition > 1
  · right
    refine ⟨hf, ?_⟩
    simp only [partitionDir, if_pos hf] at h
    cases hs : partitionStart ledgerSeq ledgersPerFile filesPerPartition with
    | none => simp [hs] at h
    | some s =>
      cases he : partitionEnd ledgerSeq ledgersPerFile filesPerPartition with
      | none => simp [hs, he] at h
      | some e =>
        simp only [hs, he, Option.some.injEq] at h
        refine ⟨s, e, rfl, rfl, ?_⟩
        rw [← h]
        simp [String.data_append]
  · left
    simp only [partitionDir, if_neg hf, Option.some.injEq] at h
    exact ⟨by omega, by rw [← h]⟩

/-- The file part of a key determines the file start. -/
theorem fileStart_eq_of_fileBaseChars (ledgerSeq1 ledgerSeq2 ledgersPerFile : Nat)
    (h1 : 1 ≤ ledgersPerFile) (hl : ledgersPerFile < 2 ^ 32)
    (h : fileBaseChars ledgerSeq1 ledgersPerFile = fileBaseChars ledgerSeq2 ledgersPerFile) :
    fileStart ledgerSeq1 ledgersPerFile = fileStart ledgerSeq2 ledgersPerFile := by
  by_cases hone : ledgersPerFile = 1
  · have e1 := (fileStart_ne_fileEnd_iff ledgerSeq1 ledgersPerFile h1 hl).not.2 (by simpa using hone)
    have e2 := (fileStart_ne_fileEnd_iff ledgerSeq2 ledgersPerFile h1 hl).not.2 (by simpa using hone)
    simp only [fileBaseChars, if_neg e1, if_neg e2, List.append_nil] at h
    exact fmtD_data_injective h
  · have e1 := (fileStart_ne_fileEnd_iff ledgerSeq1 ledgersPerFile h1 hl).2 hone
    have e2 := (fileStart_ne_fileEnd_iff ledgerSeq2 ledgersPerFile h1 hl).2 hone
    simp only [fileBaseChars, if_pos e1, if_pos e2] at h
    exact fmtD_data_injective
      (eq_of_append_sep '-' _ _ _ _ (dash_not_mem_fmtD _) (dash_not_mem_fmtD _) h).1

/-- C3. Two 32-bit sequence numbers of different file ranges never get the same
key: whenever both calls return a key, the keys differ, for every suffix (the
empty one and those starting with a digit or a dash included) and every
`filesPerPartition`, wrapping partition sizes included. -/
theorem differentRange_differentKey
    (ledgerSeq1 ledgerSeq2 ledgersPerFile filesPerPartition : Nat)
    (fileSuffix key1 key2 : String)
    (h1 : 1 ≤ ledgersPerFile) (hl : ledgersPerFile < 2 ^ 32)
    (hs1 : ledgerSeq1 < 2 ^ 32) (hs2 : ledgerSeq2 < 2 ^ 32)
    (h : ledgerSeq1 / ledgersPerFile ≠ ledgerSeq2 / ledgersPerFile)
    (hk1 : GetObjectKeyFromSequenceNumber ledgerSeq1 ledgersPerFile filesPerPartition fileSuffix
      = .ret key1 none)
    (hk2 : GetObjectKeyFromSequenceNumber ledgerSeq2 ledgersPerFile filesPerPartition fileSuffix
      = .ret key2 none) :
    key1 ≠ key2 := by
  intro hkey
  obtain ⟨dir1, hd1, e1⟩ := key_data _ _ _ _ _ h1 hk1
  obtain ⟨dir2, hd2, e2⟩ := key_data _ _ _ _ _ h1 hk2
  rw [hkey, e2, ← List.append_assoc, ← List.append_assoc] at e1
  have hcut : dir2.data ++ fileBaseChars ledgerSeq2 ledgersPerFile
      = dir1.data ++ fileBaseChars ledgerSeq1 ledgersPerFile := List.append_cancel_right e1
  have hbase : fileBaseChars ledgerSeq1 ledgersPerFile
      = fileBaseChars ledgerSeq2 ledgersPerFile := by
    rcases partitionDir_data _ _ _ _ hd1 with ⟨hf1, n1⟩ | ⟨hf1, s1, t1, -, -, n1⟩
    · rcases partitionDir_data _ _ _ _ hd2 with ⟨_, n2⟩ | ⟨hf2, _⟩
      · rw [n1, n2] at hcut
        simpa using hcut.symm
      · omega
    · rcases partitionDir_data _ _ _ _ hd2 with ⟨hf2, _⟩ | ⟨_, s2, t2, -, -, n2⟩
      · omega
      · rw [n1, n2] at hcut
        simp only [List.append_assoc, List.cons_append, List.nil_append] at hcut
        have c1 := (eq_of_append_sep '-' _ _ _ _ (dash_not_mem_fmtD _)
          (dash_not_mem_fmtD _) hcut).2
        exact ((eq_of_append_sep '/' _ _ _ _ (slash_not_mem_fmtD _)
          (slash_not_mem_fmtD _) c1).2).symm
  have hfs := fileStart_eq_of_fileBaseChars _ _ _ h1 hl hbase
  rw [fileStart_eq _ _ hs1, fileStart_eq _ _ hs2] at hfs
  exact h (Nat.eq_of_mul_eq_mul_right (by omega) hfs)

theorem differentRange_differentKey_witness :
    1 ≤ 64 ∧ 64 < 2 ^ 32 ∧ 200 < 2 ^ 32 ∧ 700 < 2 ^ 32 ∧ 200 / 64 ≠ 700 / 64 ∧
    GetObjectKeyFromSequenceNumber 200 64 10 ".xdr.gz" = .ret "0-639/192-255.xdr.gz" none ∧
    GetObjectKeyFromSequenceNumber 700 64 10 ".xdr.gz" = .ret "640-1279/640-703.xdr.gz" none ∧
    "0-639/192-255.xdr.gz" ≠ "640-1279/640-703.xdr.gz" :=
  ⟨by decide, by decide, by decide, by decide, by decide, by decide, by decide,
    differentRange_differentKey 200 700 64 10 ".xdr.gz" _ _ (by decide) (by decide) (by decide)
      (by decide) (by decide) (by decide) (by decide)⟩

/-! ### Ranges over the natural numbers -/

/-- File range and partition range are nested, as natural numbers. -/
theorem range_nesting (ledgerSeq ledgersPerFile filesPerPartition : Nat)
    (h1 : 0 < ledgersPerFile) (hf : 0 < filesPerPartition) :
    ledgerSeq / (ledgersPerFile * filesPerPartition) * (ledgersPerFile * filesPerPartition)
        ≤ ledgerSeq / ledgersPerFile * ledgersPerFile ∧
      ledgerSeq / ledgersPerFile * ledgersPerFile ≤ ledgerSeq ∧
      ledgerSeq < ledgerSeq / ledgersPerFile * ledgersPerFile + ledgersPerFile ∧
      ledgerSeq / ledgersPerFile * ledgersPerFile + ledgersPerFile
        ≤ ledgerSeq / (ledgersPerFile * filesPerPartition)
            * (ledgersPerFile * filesPerPartition) + ledgersPerFile * filesPerPartition := by
  have hq : ledgerSeq / (ledgersPerFile * filesPerPartition)
      = ledgerSeq / ledgersPerFile / filesPerPartition := (Nat.div_div_eq_div_mul _ _ _).symm
  have hle : ledgerSeq / ledgersPerFile * ledgersPerFile ≤ ledgerSeq :=
    Nat.div_mul_le_self _ _
  have hlt : ledgerSeq < ledgerSeq / ledgersPerFile * ledgersPerFile + ledgersPerFile := by
    have := Nat.div_add_mod ledgerSeq ledgersPerFile
    have hm := Nat.mod_lt ledgerSeq h1
    rw [Nat.mul_comm] at this
    omega
  rw [hq]
  generalize ledgerSeq / ledgersPerFile = q at hle hlt ⊢
  have ha : q / filesPerPartition * filesPerPartition ≤ q := Nat.div_mul_le_self _ _
  have hb : q + 1 ≤ q / filesPerPartition * filesPerPartition + filesPerPartition := by
    have := Nat.div_add_mod q filesPerPartition
    have hm := Nat.mod_lt q hf
    rw [Nat.mul_comm] at this
    omega
  have hc : q / filesPerPartition * (ledgersPerFile * filesPerPartition)
      = q / filesPerPartition * filesPerPartition * ledgersPerFile := by
    rw [Nat.mul_comm ledgersPerFile, Nat.mul_assoc]
  refine ⟨?_, hle, hlt, ?_⟩
  · rw [hc]
    exact Nat.mul_le_mul_right _ ha
  · rw [hc]
    have hd := Nat.mul_le_mul_right ledgersPerFile hb
    rw [Nat.add_mul, Nat.one_mul, Nat.add_mul, Nat.mul_comm filesPerPartition] at hd
    exact hd

/-! ### The key in terms of the computed values -/

/-- Once the partition block has produced `dir`, the call returns `dir` followed
by the file part and the suffix. -/
theorem key_of_partitionDir (ledgerSeq ledgersPerFile filesPerPartition : Nat)
    (fileSuffix dir : String) (h1 : 1 ≤ ledgersPerFile)
    (hdir : partitionDir ledgerSeq ledgersPerFile filesPerPartition = some dir) :
    GetObjectKeyFromSequenceNumber ledgerSeq ledgersPerFile filesPerPartition fileSuffix
      = .ret ((if fileStart ledgerSeq ledgersPerFile ≠ fileEnd ledgerSeq ledgersPerFile then
            dir ++ fmtD (fileStart ledgerSeq ledgersPerFile)
              ++ ("-" ++ fmtD (fileEnd ledgerSeq ledgersPerFile))
          else dir ++ fmtD (fileStart ledgerSeq ledgersPerFile)) ++ fileSuffix) none := by
  have hg : ¬ ledgersPerFile < 1 := by omega
  simp only [GetObjectKeyFromSequenceNumber, if_neg hg, hdir]

/-- The flat layout: no directory, the file start, the file end when the file
holds more than one ledger, the suffix. -/
theorem flat_key (ledgerSeq ledgersPerFile filesPerPartition : Nat) (fileSuffix : String)
    (hs : ledgerSeq < 2 ^ 32) (h1 : 1 ≤ ledgersPerFile) (hl : ledgersPerFile < 2 ^ 32)
    (hf : filesPerPartition ≤ 1)
    (hfit : ledgerSeq / ledgersPerFile * ledgersPerFile + ledgersPerFile - 1 < 2 ^ 32) :
    GetObjectKeyFromSequenceNumber ledgerSeq ledgersPerFile filesPerPartition fileSuffix
      = .ret (fmtD (ledgerSeq / ledgersPerFile * ledgersPerFile)
          ++ (if ledgersPerFile > 1 then
                "-" ++ fmtD (ledgerSeq / ledgersPerFile * ledgersPerFile + ledgersPerFile - 1)
              else "")
          ++ fileSuffix) none := by
  have hnf : ¬ filesPerPartition > 1 := by omega
  have hdir : partitionDir ledgerSeq ledgersPerFile filesPerPartition = some "" := by
    simp only [partitionDir, if_neg hnf]
  rw [key_of_partitionDir _ _ _ _ _ h1 hdir]
  have hiff := fileStart_ne_fileEnd_iff ledgerSeq ledgersPerFile h1 hl
  by_cases hone : ledgersPerFile = 1
  · have hgt : ¬ ledgersPerFile > 1 := by omega
    rw [if_neg (hiff.not.2 (not_not.2 hone)), if_neg hgt, fileStart_eq _ _ hs,
      String.empty_append, String.append_empty]
  · have hgt : ledgersPerFile > 1 := by omega
    rw [if_pos (hiff.2 hone), if_pos hgt, fileStart_eq _ _ hs, fileEnd_eq _ _ hs h1 hfit,
      String.empty_append]

/-- The partitioned layout when the partition fits in 32 bits: the directory
`start-end/`, then the file part and the suffix. -/
theorem partitioned_key (ledgerSeq ledgersPerFile filesPerPartition : Nat)
    (fileSuffix : String) (hs : ledgerSeq < 2 ^ 32) (h1 : 1 ≤ ledgersPerFile)
    (hf : filesPerPartition > 1) (hP : ledgersPerFile * filesPerPartition < 2 ^ 32)
    (hfit : ledgerSeq / (ledgersPerFile * filesPerPartition)
        * (ledgersPerFile * filesPerPartition)
        + ledgersPerFile * filesPerPartition - 1 < 2 ^ 32) :
    GetObjectKeyFromSequenceNumber ledgerSeq ledgersPerFile filesPerPartition fileSuffix
      = .ret (fmtD (ledgerSeq / (ledgersPerFile * filesPerPartition)
              * (ledgersPerFile * filesPerPartition))
          ++ "-"
          ++ fmtD (ledgerSeq / (ledgersPerFile * filesPerPartition)
              * (ledgersPerFile * filesPerPartition)
              + ledgersPerFile * filesPerPartition - 1)
          ++ "/"
          ++ fmtD (ledgerSeq / ledgersPerFile * ledgersPerFile)
          ++ (if ledgersPerFile > 1 then
                "-" ++ fmtD (ledgerSeq / ledgersPerFile * ledgersPerFile + ledgersPerFile - 1)
              else "")
          ++ fileSuffix) none := by
  have h0 : 0 < ledgersPerFile * filesPerPartition := Nat.mul_pos (by omega) (by omega)
  have hl : ledgersPerFile < 2 ^ 32 :=
    Nat.lt_of_le_of_lt (Nat.le_mul_of_pos_right _ (by omega)) hP
  obtain ⟨-, -, -, hnest⟩ := range_nesting ledgerSeq ledgersPerFile filesPerPartition
    (by omega) (by omega)
  have hffit : ledgerSeq / ledgersPerFile * ledgersPerFile + ledgersPerFile - 1 < 2 ^ 32 := by
    omega
  have hdir : partitionDir ledgerSeq ledgersPerFile filesPerPartition
      = some (fmtD (ledgerSeq / (ledgersPerFile * filesPerPartition)
              * (ledgersPerFile * filesPerPartition))
          ++ "-"
          ++ fmtD (ledgerSeq / (ledgersPerFile * filesPerPartition)
              * (ledgersPerFile * filesPerPartition)
              + ledgersPerFile * filesPerPartition - 1)
          ++ "/") := by
    simp only [partitionDir, if_pos hf, partitionStart_eq _ _ _ hs h0 hP,
      partitionEnd_eq _ _ _ hs h0 hP hfit]
  rw [key_of_partitionDir _ _ _ _ _ h1 hdir]
  have hiff := fileStart_ne_fileEnd_iff ledgerSeq ledgersPerFile h1 hl
  by_cases hone : ledgersPerFile = 1
  · have hgt : ¬ ledgersPerFile > 1 := by omega
    rw [if_neg (hiff.not.2 (not_not.2 hone)), if_neg hgt, fileStart_eq _ _ hs,
      String.append_empty]
  · have hgt : ledgersPerFile > 1 := by omega
    rw [if_pos (hiff.2 hone), if_pos hgt, fileStart_eq _ _ hs, fileEnd_eq _ _ hs h1 hffit]

/-- With a partition that fits in 32 bits, the values computed by lines 74-81
are nested: the partition range contains the file range, which contains the
ledger, and the file start is a multiple of `ledgersPerFile`. -/
theorem computed_ranges_nested (ledgerSeq ledgersPerFile filesPerPartition : Nat)
    (hs : ledgerSeq < 2 ^ 32) (h1 : 1 ≤ ledgersPerFile) (hf : filesPerPartition > 1)
    (hP : ledgersPerFile * filesPerPartition < 2 ^ 32)
    (hfit : ledgerSeq / (ledgersPerFile * filesPerPartition)
        * (ledgersPerFile * filesPerPartition)
        + ledgersPerFile * filesPerPartition - 1 < 2 ^ 32) :
    ∃ pStart pEnd,
      partitionStart ledgerSeq ledgersPerFile filesPerPartition = some pStart ∧
      partitionEnd ledgerSeq ledgersPerFile filesPerPartition = some pEnd ∧
      pStart ≤ fileStart ledgerSeq ledgersPerFile ∧
      fileStart ledgerSeq ledgersPerFile ≤ ledgerSeq ∧
      ledgerSeq ≤ fileEnd ledgerSeq ledgersPerFile ∧
      fileEnd ledgerSeq ledgersPerFile ≤ pEnd ∧
      ledgersPerFile ∣ fileStart ledgerSeq ledgersPerFile := by
  have h0 : 0 < ledgersPerFile * filesPerPartition := Nat.mul_pos (by omega) (by omega)
  obtain ⟨ha, hb, hc, hd⟩ := range_nesting ledgerSeq ledgersPerFile filesPerPartition
    (by omega) (by omega)
  have hffit : ledgerSeq / ledgersPerFile * ledgersPerFile + ledgersPerFile - 1 < 2 ^ 32 := by
    omega
  refine ⟨_, _, partitionStart_eq _ _ _ hs h0 hP, partitionEnd_eq _ _ _ hs h0 hP hfit, ?_⟩
  rw [fileStart_eq _ _ hs, fileEnd_eq _ _ hs h1 hffit]
  exact ⟨ha, hb, by omega, by omega, Dvd.intro_left _ rfl⟩

/-! ### Totality -/

/-- C4 fails in the code: `ledgersPerFile = 65536` and `filesPerPartition = 65536`
are valid arguments, their 32-bit product `partitionSize` is 0, and the division
of line 75 panics instead of returning a key. -/
theorem wrapped_partitionSize_divides_by_zero :
    0 < 2 ^ 32 ∧ 1 ≤ 65536 ∧ 65536 < 2 ^ 32 ∧
    partitionSize 65536 65536 = 0 ∧
    partitionStart 0 65536 65536 = none ∧
    GetObjectKeyFromSequenceNumber 0 65536 65536 ".xdr.gz" = .panicDivideByZero := by
  decide

/-! ### The partitioned layout -/

/-- C5 fails in the code when the partition is the whole 32-bit range: for
`(200, 65536, 65536)` the product over the natural numbers is `2 ^ 32`, the
partition `0-4294967295` fits, and the call panics on the division of line 75
instead of returning `0-4294967295/0-65535.xdr.gz`. -/
theorem whole_range_partition_has_no_key :
    1 ≤ 65536 ∧ 65536 > 1 ∧
    200 / (65536 * 65536) * (65536 * 65536) + 65536 * 65536 - 1 < 2 ^ 32 ∧
    GetObjectKeyFromSequenceNumber 200 65536 65536 ".xdr.gz" = .panicDivideByZero ∧
    GetObjectKeyFromSequenceNumber 200 65536 65536 ".xdr.gz"
      ≠ .ret "0-4294967295/0-65535.xdr.gz" none := by
  decide

/-! ### The flat layout -/

/-- C6. With `filesPerPartition` 0 or 1 and a file range that fits in 32 bits,
the key is the file start, then a dash and the file end when
`ledgersPerFile > 1`, then the suffix, with no directory; with
`ledgersPerFile = 1` it is the sequence number and the suffix; and the keys for
`filesPerPartition = 0` and `= 1` are equal. -/
theorem flatLayout_key (ledgerSeq ledgersPerFile filesPerPartition : Nat) (fileSuffix : String)
    (hs : ledgerSeq < 2 ^ 32) (h1 : 1 ≤ ledgersPerFile) (hl : ledgersPerFile < 2 ^ 32)
    (hf : filesPerPartition = 0 ∨ filesPerPartition = 1)
    (hfit : ledgerSeq / ledgersPerFile * ledgersPerFile + ledgersPerFile - 1 < 2 ^ 32) :
    GetObjectKeyFromSequenceNumber ledgerSeq ledgersPerFile filesPerPartition fileSuffix
        = .ret (fmtD (ledgerSeq / ledgersPerFile * ledgersPerFile)
            ++ (if ledgersPerFile > 1 then
                  "-" ++ fmtD (ledgerSeq / ledgersPerFile * ledgersPerFile + ledgersPerFile - 1)
                else "")
            ++ fileSuffix) none ∧
      (ledgersPerFile = 1 →
        GetObjectKeyFromSequenceNumber ledgerSeq ledgersPerFile filesPerPartition fileSuffix
          = .ret (fmtD ledgerSeq ++ fileSuffix) none) ∧
      GetObjectKeyFromSequenceNumber ledgerSeq ledgersPerFile 0 fileSuffix
        = GetObjectKeyFromSequenceNumber ledgerSeq ledgersPerFile 1 fileSuffix := by
  have hle : filesPerPartition ≤ 1 := by omega
  refine ⟨flat_key _ _ _ _ hs h1 hl hle hfit, ?_, ?_⟩
  · intro hone
    subst hone
    rw [flat_key _ _ _ _ hs h1 hl hle hfit, if_neg (by omega), Nat.div_one, Nat.mul_one,
      String.append_empty]
  · rw [flat_key _ _ 0 _ hs h1 hl (by omega) hfit, flat_key _ _ 1 _ hs h1 hl (by omega) hfit]

theorem flatLayout_key_witness :
    5 < 2 ^ 32 ∧ 1 ≤ 64 ∧ 64 < 2 ^ 32 ∧ ((0 : Nat) = 0 ∨ (0 : Nat) = 1) ∧
    5 / 64 * 64 + 64 - 1 < 2 ^ 32 ∧
    GetObjectKeyFromSequenceNumber 5 64 0 ".xdr.gz" = .ret "0-63.xdr.gz" none ∧
    GetObjectKeyFromSequenceNumber 5 1 0 ".xdr.gz" = .ret "5.xdr.gz" none ∧
    (GetObjectKeyFromSequenceNumber 5 64 0 ".xdr.gz"
        = .ret (fmtD (5 / 64 * 64)
            ++ (if 64 > 1 then "-" ++ fmtD (5 / 64 * 64 + 64 - 1) else "")
            ++ ".xdr.gz") none ∧
      (64 = 1 →
        GetObjectKeyFromSequenceNumber 5 64 0 ".xdr.gz" = .ret (fmtD 5 ++ ".xdr.gz") none) ∧
      GetObjectKeyFromSequenceNumber 5 64 0 ".xdr.gz"
        = GetObjectKeyFromSequenceNumber 5 64 1 ".xdr.gz") :=
  ⟨by decide, by decide, by decide, by decide, by decide, by decide, by decide,
    flatLayout_key 5 64 0 ".xdr.gz" (by decide) (by decide) (by decide) (by decide)
      (by decide)⟩

/-! ### Monotonicity -/

/-- C8. For `ledgersPerFile ≥ 1` and 32-bit sequence numbers `a < b`, the file
start of `a` is at most the file start of `b`; the 32-bit multiplication of
line 80 does not wrap, each file start being at most its sequence number. -/
theorem fileStart_monotone (a b ledgersPerFile : Nat) (h1 : 1 ≤ ledgersPerFile)
    (hb : b < 2 ^ 32) (hab : a < b) :
    fileStart a ledgersPerFile ≤ fileStart b ledgersPerFile ∧
      fileStart a ledgersPerFile = a / ledgersPerFile * ledgersPerFile ∧
      fileStart b ledgersPerFile = b / ledgersPerFile * ledgersPerFile ∧
      fileStart a ledgersPerFile ≤ a ∧ fileStart b ledgersPerFile ≤ b := by
  have ha : a < 2 ^ 32 := Nat.lt_trans hab hb
  have h0 : 0 < ledgersPerFile := h1
  rw [fileStart_eq _ _ ha, fileStart_eq _ _ hb]
  exact ⟨Nat.mul_le_mul_right _ (Nat.div_le_div_right (Nat.le_of_lt hab)), rfl, rfl,
    Nat.div_mul_le_self _ _, Nat.div_mul_le_self _ _⟩

theorem fileStart_monotone_witness :
    1 ≤ 64 ∧ 4294967295 < 2 ^ 32 ∧ 63 < 4294967295 ∧
    fileStart 63 64 = 0 ∧ fileStart 4294967295 64 = 4294967232 ∧
    (fileStart 63 64 ≤ fileStart 4294967295 64 ∧
      fileStart 63 64 = 63 / 64 * 64 ∧
      fileStart 4294967295 64 = 4294967295 / 64 * 64 ∧
      fileStart 63 64 ≤ 63 ∧ fileStart 4294967295 64 ≤ 4294967295) :=
  ⟨by decide, by decide, by decide, by decide, by decide,
    fileStart_monotone 63 4294967295 64 (by decide) (by decide) (by decide)⟩

/-! ### Range nesting -/

/-- C10. For a 32-bit `ledgerSeq`, `ledgersPerFile ≥ 1` and `filesPerPartition > 1`,
when the partition start computed by line 75 plus `ledgersPerFile *
filesPerPartition - 1` is below `2 ^ 32`, the partition end of line 76 is
computed as well and the computed values are nested: partition start, file
start, ledger, file end, partition end, in this order; and the file start is a
multiple of `ledgersPerFile`. -/
theorem computed_values_nested (ledgerSeq ledgersPerFile filesPerPartition pStart : Nat)
    (hs : ledgerSeq < 2 ^ 32) (h1 : 1 ≤ ledgersPerFile) (hf : filesPerPartition > 1)
    (hps : partitionStart ledgerSeq ledgersPerFile filesPerPartition = some pStart)
    (hfit : pStart + ledgersPerFile * filesPerPartition - 1 < 2 ^ 32) :
    ∃ pEnd,
      partitionEnd ledgerSeq ledgersPerFile filesPerPartition = some pEnd ∧
      pStart ≤ fileStart ledgerSeq ledgersPerFile ∧
      fileStart ledgerSeq ledgersPerFile ≤ ledgerSeq ∧
      ledgerSeq ≤ fileEnd ledgerSeq ledgersPerFile ∧
      fileEnd ledgerSeq ledgersPerFile ≤ pEnd ∧
      ledgersPerFile ∣ fileStart ledgerSeq ledgersPerFile := by
  have h0 : 0 < ledgersPerFile * filesPerPartition := Nat.mul_pos (by omega) (by omega)
  have hsz : partitionSize ledgersPerFile filesPerPartition ≠ 0 := by
    intro hz
    simp only [partitionStart, div32, hz, if_true, Option.map_none'] at hps
    exact Option.noConfusion hps
  have hP : ledgersPerFile * filesPerPartition < 2 ^ 32 := by
    rcases Nat.lt_or_ge (ledgersPerFile * filesPerPartition) (2 ^ 32) with h | h
    · exact h
    · have heq : ledgersPerFile * filesPerPartition = 2 ^ 32 := by omega
      exact absurd (by simp only [partitionSize, mul32, uint32Size, heq, Nat.mod_self]) hsz
  have hst := partitionStart_eq ledgerSeq ledgersPerFile filesPerPartition hs h0 hP
  rw [hps] at hst
  have hpe : pStart = ledgerSeq / (ledgersPerFile * filesPerPartition)
      * (ledgersPerFile * filesPerPartition) := Option.some.inj hst
  rw [hpe] at hfit
  obtain ⟨pStart2, pEnd, hps2, hpend, hnest⟩ :=
    computed_ranges_nested ledgerSeq ledgersPerFile filesPerPartition hs h1 hf hP hfit
  rw [hps] at hps2
  have hsame : pStart = pStart2 := Option.some.inj hps2
  subst hsame
  exact ⟨pEnd, hpend, hnest⟩

theorem computed_values_nested_witness :
    700 < 2 ^ 32 ∧ 1 ≤ 64 ∧ 10 > 1 ∧ partitionStart 700 64 10 = some 640 ∧
    640 + 64 * 10 - 1 < 2 ^ 32 ∧
    partitionEnd 700 64 10 = some 1279 ∧ fileStart 700 64 = 640 ∧ fileEnd 700 64 = 703 ∧
    ∃ pEnd,
      partitionEnd 700 64 10 = some pEnd ∧
      640 ≤ fileStart 700 64 ∧
      fileStart 700 64 ≤ 700 ∧
      700 ≤ fileEnd 700 64 ∧
      fileEnd 700 64 ≤ pEnd ∧
      64 ∣ fileStart 700 64 :=
  ⟨by decide, by decide, by decide, by decide, by decide, by decide, by decide, by decide,
    computed_values_nested 700 64 10 640 (by decide) (by decide) (by decide) (by decide)
      (by decide)⟩

/-! ## The prefix stored by `NewDataStore` -/

/-- The characters left by `TrimPrefix s "/"`: one leading slash is dropped. -/
theorem TrimPrefix_slash_data (s : String) :
    (TrimPrefix s "/").data = if s.data.head? = some '/' then s.data.tail else s.data := by
  have hslash : ("/" : String).data = ['/'] := rfl
  rcases hd : s.data with _ | ⟨c, t⟩
  · have hno : ¬ ((none : Option Char) = some '/') := fun h => Option.noConfusion h
    simp only [TrimPrefix, hslash, hd, List.isPrefixOf, List.head?_nil, Bool.false_eq_true,
      if_false, if_neg hno]
  · by_cases hc : c = '/'
    · subst hc
      simp only [TrimPrefix, hslash, hd, List.isPrefixOf, List.head?_cons, List.tail_cons,
        List.length_singleton, List.drop_succ_cons, List.drop_zero, beq_self_eq_true,
        Bool.and_self, if_true]
    · have hne : ('/' == c) = false := beq_false_of_ne (Ne.symm hc)
      have hne2 : ¬ (some c = some '/') := fun h => hc (Option.some.inj h)
      simp only [TrimPrefix, hslash, hd, List.isPrefixOf, List.head?_cons, hne,
        Bool.false_and, Bool.false_eq_true, if_false, if_neg hne2]

/-- A store returned by `NewDataStore` holds the host as bucket name and the
path, trimmed by line 44, as prefix. -/
theorem NewDataStore_ok (parse : String → Except String URL) (newClient : Except String Unit)
    (bucketAttrs : String → Except String Unit) (destinationURL : String)
    (store : GCSDataStore)
    (h : NewDataStore parse newClient bucketAttrs destinationURL = .ok store) :
    ∃ parsed, parse destinationURL = .ok parsed ∧ parsed.Scheme = "gcs" ∧
      store.bucket = parsed.Host ∧ store.pfx = TrimPrefix parsed.Path "/" := by
  unfold NewDataStore at h
  rcases hp : parse destinationURL with err | parsed
  · rw [hp] at h
    exact Except.noConfusion h
  · rw [hp] at h
    by_cases hsch : parsed.Scheme = "gcs"
    · rcases hc : newClient with err | u
      · simp only [hsch, hc, ne_eq, not_true_eq_false, if_false] at h
        exact Except.noConfusion h
      · rcases hb : bucketAttrs parsed.Host with err | u2
        · simp only [hsch, hc, hb, ne_eq, not_true_eq_false, if_false] at h
          exact Except.noConfusion h
        · simp only [hsch, hc, hb, ne_eq, not_true_eq_false, if_false] at h
          have hst := Except.ok.inj h
          exact ⟨parsed, rfl, hsch, by rw [← hst], by rw [← hst]⟩
    · simp only [ne_eq, hsch, not_false_eq_true, if_true] at h
      exact Except.noConfusion h

/-- A path with at most one leading slash gives a prefix without a leading
slash. -/
theorem pfx_head_of_single_slash (parse : String → Except String URL)
    (newClient : Except String Unit) (bucketAttrs : String → Except String Unit)
    (destinationURL : String) (store : GCSDataStore) (parsed : URL)
    (hp : parse destinationURL = .ok parsed)
    (hpath : ∀ t, parsed.Path.data ≠ '/' :: '/' :: t)
    (h : NewDataStore parse newClient bucketAttrs destinationURL = .ok store) :
    store.pfx.data.head? ≠ some '/' := by
  obtain ⟨parsed2, hp2, -, -, hpfx⟩ := NewDataStore_ok _ _ _ _ _ h
  rw [hp] at hp2
  have hpe : parsed = parsed2 := Except.ok.inj hp2
  subst hpe
  rw [hpfx, TrimPrefix_slash_data]
  rcases hd : parsed.Path.data with _ | ⟨c, t⟩
  · simp only [List.head?_nil, if_false]
    exact fun h => Option.noConfusion h
  · by_cases hc : c = '/'
    · subst hc
      simp only [List.head?_cons, if_true, List.tail_cons]
      rcases t with _ | ⟨c2, t2⟩
      · exact fun h => Option.noConfusion h
      · intro hh
        have : c2 = '/' := Option.some.inj hh
        subst this
        exact hpath t2 hd
    · have hne2 : ¬ (some c = some '/') := fun h => hc (Option.some.inj h)
      simp only [List.head?_cons, if_neg hne2]
      exact hne2

/-- C7 fails in the code for a path that begins with two slashes: line 44 trims
one `/` only, so the URL `gcs://bucket//data`, whose parsed path is `//data`,
gives a store whose prefix `/data` begins with the separator. -/
theorem double_slash_path_keeps_a_slash :
    NewDataStore (fun _ => .ok { Scheme := "gcs", Host := "bucket", Path := "//data" })
        (.ok ()) (fun _ => .ok ()) "gcs://bucket//data"
      = .ok { bucket := "bucket", pfx := "/data" } ∧
    TrimPrefix "//data" "/" = "/data" ∧
    (TrimPrefix "//data" "/").data.head? = some '/' := by
  refine ⟨rfl, by decide, by decide⟩

/-! ## The `DataStore` interface -/

/-- C9. On a store where `Exists` reports the key absent, `PutFileIfNotExists`
returns `(true, nil)` and `Exists` then returns `(true, nil)`; a second
`PutFileIfNotExists` on the key, with any content, returns `(false, nil)` and
leaves the store, hence the content of the key, as the first call left it. -/
theorem putFileIfNotExists_idempotent (s : DataStore) (path : String) (c1 c2 : List Nat)
    (habsent : s.Exists path = (false, none)) :
    (s.PutFileIfNotExists path c1).2 = (true, none) ∧
      (s.PutFileIfNotExists path c1).1.Exists path = (true, none) ∧
      (s.PutFileIfNotExists path c1).1.content path = some c1 ∧
      ((s.PutFileIfNotExists path c1).1.PutFileIfNotExists path c2).2 = (false, none) ∧
      ((s.PutFileIfNotExists path c1).1.PutFileIfNotExists path c2).1
        = (s.PutFileIfNotExists path c1).1 ∧
      ((s.PutFileIfNotExists path c1).1.PutFileIfNotExists path c2).1.content path
        = some c1 := by
  have hopen : s.closed = false := by
    cases hc : s.closed with
    | false => rfl
    | true =>
      simp only [DataStore.Exists, hc, if_true] at habsent
      exact absurd (congrArg Prod.snd habsent) (fun h => Option.noConfusion h)
  have hnone : (s.content path).isSome = false := by
    simp only [DataStore.Exists, hopen, Bool.false_eq_true, if_false] at habsent
    exact congrArg Prod.fst habsent
  have hput : s.PutFileIfNotExists path c1
      = ({ s with objects := (path, c1) :: s.objects }, true, none) := by
    simp only [DataStore.PutFileIfNotExists, DataStore.PutFile, hopen, hnone,
      Bool.false_eq_true, if_false]
  have hcontent : ∀ b, ({ objects := (path, c1) :: s.objects, closed := b } : DataStore).content
      path = some c1 := by
    intro b
    simp only [DataStore.content, List.lookup, beq_self_eq_true]
  rw [hput]
  simp only [DataStore.PutFileIfNotExists, DataStore.Exists, hopen, hcontent,
    Bool.false_eq_true, if_false, Option.isSome_some, if_true, and_self]

theorem putFileIfNotExists_idempotent_witness :
    DataStore.Exists { objects := [("0-63.xdr.gz", [1, 2])], closed := false } "64-127.xdr.gz"
        = (false, none) ∧
    (DataStore.PutFileIfNotExists { objects := [("0-63.xdr.gz", [1, 2])], closed := false }
        "64-127.xdr.gz" [3]).1
      = { objects := [("64-127.xdr.gz", [3]), ("0-63.xdr.gz", [1, 2])], closed := false } ∧
    ((DataStore.PutFileIfNotExists { objects := [("0-63.xdr.gz", [1, 2])], closed := false }
          "64-127.xdr.gz" [3]).2 = (true, none) ∧
      DataStore.Exists
          (DataStore.PutFileIfNotExists { objects := [("0-63.xdr.gz", [1, 2])], closed := false }
            "64-127.xdr.gz" [3]).1 "64-127.xdr.gz" = (true, none) ∧
      DataStore.content
          (DataStore.PutFileIfNotExists { objects := [("0-63.xdr.gz", [1, 2])], closed := false }
            "64-127.xdr.gz" [3]).1 "64-127.xdr.gz" = some [3] ∧
      (DataStore.PutFileIfNotExists
          (DataStore.PutFileIfNotExists { objects := [("0-63.xdr.gz", [1, 2])], closed := false }
            "64-127.xdr.gz" [3]).1 "64-127.xdr.gz" [4]).2 = (false, none) ∧
      (DataStore.PutFileIfNotExists
          (DataStore.PutFileIfNotExists { objects := [("0-63.xdr.gz", [1, 2])], closed := false }
            "64-127.xdr.gz" [3]).1 "64-127.xdr.gz" [4]).1
        = (DataStore.PutFileIfNotExists
            { objects := [("0-63.xdr.gz", [1, 2])], closed := false } "64-127.xdr.gz" [3]).1 ∧
      DataStore.content
          (DataStore.PutFileIfNotExists
            (DataStore.PutFileIfNotExists
              { objects := [("0-63.xdr.gz", [1, 2])], closed := false }
              "64-127.xdr.gz" [3]).1 "64-127.xdr.gz" [4]).1 "64-127.xdr.gz" = some [3]) :=
  ⟨by decide, by decide,
    putFileIfNotExists_idempotent { objects := [("0-63.xdr.gz", [1, 2])], closed := false }
      "64-127.xdr.gz" [3] [4] (by decide)⟩

end Datastore
